import Mathlib

/-!
Verification of the Prot'n'Hub interaction-graph pipeline (`protnhub.py`).

The pipeline under study is the pair of functions `build_network` (edge
ingestion into a networkx `DiGraph`) and `find_hub_genes` (degree ranking),
together with the score-threshold conversion done in
`get_string_interactions`.  The embedding below models:

* a networkx `DiGraph` as a list of node labels in insertion order together
  with a list of directed weighted edges, where `add_edge` inserts the two
  endpoints (appending each to the node list only when new, exactly as the
  adjacency dictionary of networkx records first appearance) and overwrites
  the weight of an already-present `(u, v)` edge in place;
* an interaction record as a JSON-like dictionary where each of the three
  fields accessed by the source (`preferredName_A`, `preferredName_B`,
  `score`) may be absent; subscripting a missing key raises `KeyError`, so
  `build_network` is embedded as an `Except`-valued function;
* Python's stable `sorted(..., key=lambda x: x[1], reverse=True)` as a
  stable insertion sort descending on the second component;
* Python's slice `l[:n]` for an arbitrary integer `n` (negative indices
  count from the end, clamped at zero);
* Python's `int()` truncation toward zero used for the `required_score`
  request parameter.

Scores are rationals: the JSON scores are decimal numbers and every
operation the source performs on them (comparison, multiplication by 1000,
truncation) is exact on ℚ.
-/

namespace ProtnHub

/-- A networkx `DiGraph` restricted to what the source uses: node labels in
insertion order and directed edges `(src, dst, weight)`. -/
structure Graph where
  nodes : List String
  edges : List (String × String × ℚ)
deriving DecidableEq

/-- The empty graph produced by `nx.DiGraph()`. -/
def Graph.empty : Graph := ⟨[], []⟩

/-- Adding a node to the adjacency structure: appended at the end when new
(networkx dictionaries preserve insertion order), no-op when present. -/
def addNode (G : Graph) (x : String) : Graph :=
  if x ∈ G.nodes then G else { G with nodes := G.nodes ++ [x] }

/-- Overwrite the weight of the `(u, v)` edge when present, otherwise append
the new edge — the effect of `DiGraph.add_edge` on the edge set. -/
def replaceEdge : List (String × String × ℚ) → String → String → ℚ → List (String × String × ℚ)
  | [], u, v, w => [(u, v, w)]
  | e :: es, u, v, w =>
    if e.1 = u ∧ e.2.1 = v then (u, v, w) :: es else e :: replaceEdge es u v w

/-- Model of `G.add_edge(p1, p2, weight=score)`: both endpoints become nodes, and the
directed edge is added with overwrite semantics for a repeated pair. -/
def addEdge (G : Graph) (u v : String) (w : ℚ) : Graph :=
  let G1 := addNode G u
  let G2 := addNode G1 v
  { G2 with edges := replaceEdge G2.edges u v w }

/-- One element of the JSON array returned by the STRING API, restricted to
the three keys `build_network` subscripts.  A `none` field models a
dictionary in which the key is absent. -/
structure InteractionRecord where
  preferredName_A : Option String
  preferredName_B : Option String
  score : Option ℚ
deriving DecidableEq

/-- A well-formed record carrying all three fields. -/
def mkRecord (a b : String) (s : ℚ) : InteractionRecord :=
  ⟨some a, some b, some s⟩

/-- The loop body of `build_network`, threading the accumulated graph.
Subscripting a missing key raises `KeyError`, which aborts the whole call;
the source evaluates `preferredName_A` first, then `preferredName_B`, then
`score`. -/
def build_network_from : List InteractionRecord → Graph → Except String Graph
  | [], G => Except.ok G
  | r :: rest, G =>
    match r.preferredName_A, r.preferredName_B, r.score with
    | none, _, _ => Except.error "KeyError: preferredName_A"
    | some _, none, _ => Except.error "KeyError: preferredName_B"
    | some _, some _, none => Except.error "KeyError: score"
    | some p1, some p2, some s => build_network_from rest (addEdge G p1 p2 s)

/-- Model of `build_network(data)`: fold every interaction into a fresh `DiGraph`. -/
def build_network (data : List InteractionRecord) : Except String Graph :=
  build_network_from data Graph.empty

/-- Degree of one node of a `DiGraph`, as reported by `G.degree()`: in-degree plus out-degree. -/
def degree (G : Graph) (x : String) : ℕ :=
  (G.edges.filter fun e => decide (e.1 = x)).length +
    (G.edges.filter fun e => decide (e.2.1 = x)).length

/-- Model of `dict(G.degree())`: every node with its degree, in node insertion
(first-appearance) order. -/
def degreeList (G : Graph) : List (String × ℕ) :=
  G.nodes.map fun x => (x, degree G x)

/-- Insert one pair into a list already sorted by descending second
component, after every earlier element with a strictly larger value and
before the first element with an equal or smaller value — the placement a
stable descending sort gives an element relative to later ones. -/
def insertDesc (x : String × ℕ) : List (String × ℕ) → List (String × ℕ)
  | [] => [x]
  | y :: ys => if y.2 > x.2 then y :: insertDesc x ys else x :: y :: ys

/-- Model of `sorted(pairs, key=lambda x: x[1], reverse=True)`: Python's sort is
stable, and a stable sort is uniquely determined by the key comparison, so
stable insertion sort is its exact behaviour. -/
def sortDesc : List (String × ℕ) → List (String × ℕ)
  | [] => []
  | x :: xs => insertDesc x (sortDesc xs)

/-- Python's slice `l[:n]` for an arbitrary integer `n`: a nonnegative stop
takes the first `n` elements (clamped at the length), a negative stop counts
from the end (clamped at zero). -/
def pySliceTo (n : ℤ) (l : List α) : List α :=
  if 0 ≤ n then l.take n.toNat else l.take ((l.length : ℤ) + n).toNat

/-- Model of `find_hub_genes(G, top_n)`: rank the nodes by degree descending (stable)
and keep the labels of the first `top_n`. -/
def find_hub_genes (G : Graph) (top_n : ℤ) : List String :=
  let degree_dict := degreeList G
  let sorted_genes := sortDesc degree_dict
  (pySliceTo top_n sorted_genes).map Prod.fst

/-- Model of `find_hub_genes` with the graph state threaded explicitly: the only
operation touching `G` in the source is the read `dict(G.degree())`, modelled
as returning the degree dictionary together with the (unchanged) graph it
leaves behind; the returned pair is the result list and the final graph. -/
def find_hub_genes_run (G : Graph) (top_n : ℤ) : List String × Graph :=
  let read := (degreeList G, G)
  let sorted_genes := sortDesc read.1
  ((pySliceTo top_n sorted_genes).map Prod.fst, read.2)

/-- Python's `int()` on a rational: truncation toward zero. -/
def pyInt (q : ℚ) : ℤ := Int.tdiv q.num q.den

/-- The `required_score` request parameter of `get_string_interactions`:
`int(min_score * 1000)`. -/
def required_score_param (min_score : ℚ) : ℤ := pyInt (min_score * 1000)

/-- Decidable form of "every score present in `data` is positive". -/
def all_scores_pos (data : List InteractionRecord) : Bool :=
  data.all fun r =>
    match r.score with
    | some s => decide (0 < s)
    | none => true

/-- Decidable form of "`w` is the score of some record of `data`". -/
def score_of_some_record (data : List InteractionRecord) (w : ℚ) : Bool :=
  data.any fun r => decide (r.score = some w)

/-- Decidable form of "`x` is an endpoint of some edge of `G`". -/
def is_endpoint (G : Graph) (x : String) : Bool :=
  G.edges.any fun e => decide (e.1 = x) || decide (e.2.1 = x)

/-- The `KeyError` message produced for the first missing key of a record,
in the evaluation order of the source. -/
def missing_key_msg (r : InteractionRecord) : String :=
  if r.preferredName_A = none then "KeyError: preferredName_A"
  else if r.preferredName_B = none then "KeyError: preferredName_B"
  else "KeyError: score"

/-! Helper lemmas about the stable descending sort. -/

theorem mem_insertDesc {z x : String × ℕ} {l : List (String × ℕ)} :
    z ∈ insertDesc x l ↔ z = x ∨ z ∈ l := by
  induction l with
  | nil => simp [insertDesc]
  | cons y ys ih =>
    simp only [insertDesc]
    split
    · simp only [List.mem_cons, ih]
      tauto
    · simp only [List.mem_cons]

theorem mem_sortDesc {z : String × ℕ} {l : List (String × ℕ)} :
    z ∈ sortDesc l ↔ z ∈ l := by
  induction l with
  | nil => simp [sortDesc]
  | cons x xs ih =>
    simp only [sortDesc, mem_insertDesc, ih, List.mem_cons]

theorem length_insertDesc (x : String × ℕ) (l : List (String × ℕ)) :
    (insertDesc x l).length = l.length + 1 := by
  induction l with
  | nil => simp [insertDesc]
  | cons y ys ih =>
    simp only [insertDesc]
    split
    · simp [ih]
    · simp

theorem length_sortDesc (l : List (String × ℕ)) :
    (sortDesc l).length = l.length := by
  induction l with
  | nil => rfl
  | cons x xs ih => simp [sortDesc, length_insertDesc, ih]

theorem pairwise_insertDesc {x : String × ℕ} {l : List (String × ℕ)}
    (h : l.Pairwise (fun a b => b.2 ≤ a.2)) :
    (insertDesc x l).Pairwise (fun a b => b.2 ≤ a.2) := by
  induction l with
  | nil => simp [insertDesc]
  | cons y ys ih =>
    rw [List.pairwise_cons] at h
    obtain ⟨hy, hys⟩ := h
    simp only [insertDesc]
    split
    · rename_i hgt
      rw [List.pairwise_cons]
      refine ⟨fun z hz => ?_, ih hys⟩
      rcases mem_insertDesc.mp hz with rfl | hz
      · exact le_of_lt hgt
      · exact hy z hz
    · rename_i hle
      rw [not_lt] at hle
      rw [List.pairwise_cons]
      refine ⟨fun z hz => ?_, List.pairwise_cons.mpr ⟨hy, hys⟩⟩
      rcases List.mem_cons.mp hz with rfl | hz
      · exact hle
      · exact le_trans (hy z hz) hle

theorem pairwise_sortDesc (l : List (String × ℕ)) :
    (sortDesc l).Pairwise (fun a b => b.2 ≤ a.2) := by
  induction l with
  | nil => simp [sortDesc]
  | cons x xs ih => exact pairwise_insertDesc ih

theorem filter_insertDesc (x : String × ℕ) (l : List (String × ℕ)) (d : ℕ) :
    (insertDesc x l).filter (fun p => decide (p.2 = d)) =
      if x.2 = d then x :: l.filter (fun p => decide (p.2 = d))
      else l.filter (fun p => decide (p.2 = d)) := by
  induction l with
  | nil => by_cases hx : x.2 = d <;> simp [insertDesc, hx]
  | cons y ys ih =>
    simp only [insertDesc]
    split
    · rename_i hgt
      by_cases hy : y.2 = d <;> by_cases hx : x.2 = d
      · omega
      · simp [List.filter_cons, hy, hx, ih]
      · simp [List.filter_cons, hy, hx, ih]
      · simp [List.filter_cons, hy, hx, ih]
    · by_cases hy : y.2 = d <;> by_cases hx : x.2 = d <;>
        simp [List.filter_cons, hy, hx]

theorem filter_sortDesc (l : List (String × ℕ)) (d : ℕ) :
    (sortDesc l).filter (fun p => decide (p.2 = d)) =
      l.filter (fun p => decide (p.2 = d)) := by
  induction l with
  | nil => rfl
  | cons x xs ih =>
    by_cases hx : x.2 = d <;>
      simp [sortDesc, filter_insertDesc, List.filter_cons, hx, ih]

/-! Helper lemmas about Python slicing. -/

theorem mem_of_mem_pySliceTo {x : α} {n : ℤ} {l : List α}
    (h : x ∈ pySliceTo n l) : x ∈ l := by
  unfold pySliceTo at h
  split at h <;> exact List.take_subset _ _ h

theorem pySliceTo_of_length_le {n : ℤ} (l : List α)
    (h : (l.length : ℤ) ≤ n) : pySliceTo n l = l := by
  have h0 : 0 ≤ n := le_trans (Int.ofNat_nonneg _) h
  unfold pySliceTo
  rw [if_pos h0]
  apply List.take_of_length_le
  omega

theorem length_pySliceTo_le {n : ℤ} (l : List α) (h : 0 ≤ n) :
    ((pySliceTo n l).length : ℤ) ≤ n := by
  unfold pySliceTo
  rw [if_pos h, List.length_take]
  have : min n.toNat l.length ≤ n.toNat := min_le_left _ _
  omega

/-! Helper lemmas about the degree dictionary. -/

theorem length_degreeList (G : Graph) : (degreeList G).length = G.nodes.length :=
  List.length_map _ _

theorem mem_degreeList_of_mem_nodes {G : Graph} {x : String} (h : x ∈ G.nodes) :
    (x, degree G x) ∈ degreeList G :=
  List.mem_map_of_mem _ h

theorem fst_mem_nodes_of_mem_degreeList {G : Graph} {p : String × ℕ}
    (h : p ∈ degreeList G) : p.1 ∈ G.nodes := by
  obtain ⟨y, hy, rfl⟩ := List.mem_map.mp h
  exact hy

/-! Helper lemmas about graph construction. -/

theorem edges_addNode (G : Graph) (x : String) : (addNode G x).edges = G.edges := by
  unfold addNode
  split <;> rfl

theorem mem_nodes_addNode {G : Graph} {x y : String} :
    y ∈ (addNode G x).nodes ↔ y ∈ G.nodes ∨ y = x := by
  unfold addNode
  split
  · rename_i hx
    refine ⟨Or.inl, ?_⟩
    rintro (h | rfl)
    · exact h
    · exact hx
  · simp [List.mem_append]

theorem mem_of_mem_replaceEdge {e : String × String × ℚ}
    {es : List (String × String × ℚ)} {u v : String} {w : ℚ}
    (h : e ∈ replaceEdge es u v w) : e ∈ es ∨ e = (u, v, w) := by
  induction es with
  | nil =>
    simp only [replaceEdge, List.mem_singleton] at h
    exact Or.inr h
  | cons a es ih =>
    simp only [replaceEdge] at h
    split at h
    · rcases List.mem_cons.mp h with rfl | h
      · exact Or.inr rfl
      · exact Or.inl (List.mem_cons_of_mem _ h)
    · rcases List.mem_cons.mp h with rfl | h
      · exact Or.inl (List.mem_cons_self _ _)
      · rcases ih h with h | h
        · exact Or.inl (List.mem_cons_of_mem _ h)
        · exact Or.inr h

theorem self_mem_replaceEdge (es : List (String × String × ℚ)) (u v : String) (w : ℚ) :
    (u, v, w) ∈ replaceEdge es u v w := by
  induction es with
  | nil => simp [replaceEdge]
  | cons a es ih =>
    simp only [replaceEdge]
    split
    · exact List.mem_cons_self _ _
    · exact List.mem_cons_of_mem _ ih

theorem mem_replaceEdge_of_mem {e : String × String × ℚ}
    {es : List (String × String × ℚ)} {u v : String} {w : ℚ} (h : e ∈ es) :
    e ∈ replaceEdge es u v w ∨ (e.1 = u ∧ e.2.1 = v) := by
  induction es with
  | nil => cases h
  | cons a es ih =>
    simp only [replaceEdge]
    rcases List.mem_cons.mp h with rfl | h
    · split
      · rename_i hc
        exact Or.inr hc
      · exact Or.inl (List.mem_cons_self _ _)
    · split
      · exact Or.inl (List.mem_cons_of_mem _ h)
      · rcases ih h with h1 | h1
        · exact Or.inl (List.mem_cons_of_mem _ h1)
        · exact Or.inr h1

theorem edges_addEdge (G : Graph) (u v : String) (w : ℚ) :
    (addEdge G u v w).edges = replaceEdge G.edges u v w := by
  simp [addEdge, edges_addNode]

theorem mem_nodes_addEdge {G : Graph} {u v x : String} {w : ℚ} :
    x ∈ (addEdge G u v w).nodes ↔ x ∈ G.nodes ∨ x = u ∨ x = v := by
  show x ∈ (addNode (addNode G u) v).nodes ↔ _
  rw [mem_nodes_addNode, mem_nodes_addNode, or_assoc]

/-- The invariant of claim C8: the node set is exactly the set of endpoint
labels occurring in the edge set. -/
def nodesEndpoints (G : Graph) : Prop :=
  ∀ x, x ∈ G.nodes ↔ ∃ e ∈ G.edges, e.1 = x ∨ e.2.1 = x

theorem nodesEndpoints_addEdge {G : Graph} (u v : String) (w : ℚ)
    (h : nodesEndpoints G) : nodesEndpoints (addEdge G u v w) := by
  intro x
  rw [mem_nodes_addEdge]
  constructor
  · rintro (hx | rfl | rfl)
    · obtain ⟨e, he, hend⟩ := (h x).mp hx
      rcases mem_replaceEdge_of_mem (u := u) (v := v) (w := w) he with h1 | h1
      · exact ⟨e, by rw [edges_addEdge]; exact h1, hend⟩
      · refine ⟨(u, v, w), by rw [edges_addEdge]; exact self_mem_replaceEdge _ _ _ _, ?_⟩
        rcases hend with hend | hend
        · left
          rw [← h1.1]
          exact hend
        · right
          rw [← h1.2]
          exact hend
    · exact ⟨(x, v, w), by rw [edges_addEdge]; exact self_mem_replaceEdge _ _ _ _, Or.inl rfl⟩
    · exact ⟨(u, x, w), by rw [edges_addEdge]; exact self_mem_replaceEdge _ _ _ _, Or.inr rfl⟩
  · rintro ⟨e, he, hend⟩
    rw [edges_addEdge] at he
    rcases mem_of_mem_replaceEdge he with he1 | rfl
    · exact Or.inl ((h x).mpr ⟨e, he1, hend⟩)
    · rcases hend with hend | hend
      · exact Or.inr (Or.inl hend.symm)
      · exact Or.inr (Or.inr hend.symm)

theorem nodesEndpoints_build_from (data : List InteractionRecord) :
    ∀ G G' : Graph, build_network_from data G = Except.ok G' →
      nodesEndpoints G → nodesEndpoints G' := by
  induction data with
  | nil =>
    intro G G' h hG
    simp only [build_network_from, Except.ok.injEq] at h
    exact h ▸ hG
  | cons r rest ih =>
    intro G G' h hG
    cases hA : r.preferredName_A with
    | none => simp [build_network_from, hA] at h
    | some p1 =>
      cases hB : r.preferredName_B with
      | none => simp [build_network_from, hA, hB] at h
      | some p2 =>
        cases hS : r.score with
        | none => simp [build_network_from, hA, hB, hS] at h
        | some s =>
          simp only [build_network_from, hA, hB, hS] at h
          exact ih _ _ h (nodesEndpoints_addEdge p1 p2 s hG)

theorem weights_build_from (data : List InteractionRecord) :
    ∀ G G' : Graph, build_network_from data G = Except.ok G' →
      ∀ e ∈ G'.edges, e ∈ G.edges ∨ ∃ r ∈ data, r.score = some e.2.2 := by
  induction data with
  | nil =>
    intro G G' h e he
    simp only [build_network_from, Except.ok.injEq] at h
    exact Or.inl (h ▸ he)
  | cons r rest ih =>
    intro G G' h e he
    cases hA : r.preferredName_A with
    | none => simp [build_network_from, hA] at h
    | some p1 =>
      cases hB : r.preferredName_B with
      | none => simp [build_network_from, hA, hB] at h
      | some p2 =>
        cases hS : r.score with
        | none => simp [build_network_from, hA, hB, hS] at h
        | some s =>
          simp only [build_network_from, hA, hB, hS] at h
          rcases ih _ _ h e he with hmem | ⟨q, hq, hs⟩
          · rw [edges_addEdge] at hmem
            rcases mem_of_mem_replaceEdge hmem with hmem1 | rfl
            · exact Or.inl hmem1
            · exact Or.inr ⟨r, List.mem_cons_self _ _, by rw [hS]⟩
          · exact Or.inr ⟨q, List.mem_cons_of_mem _ hq, hs⟩

theorem nodesEndpoints_empty : nodesEndpoints Graph.empty := by
  intro x
  simp [Graph.empty]

/-- Every graph `build_network` returns satisfies the endpoint invariant. -/
theorem nodesEndpoints_build_network {data : List InteractionRecord} {G : Graph}
    (h : build_network data = Except.ok G) : nodesEndpoints G :=
  nodesEndpoints_build_from data Graph.empty G h nodesEndpoints_empty

/-- Every edge weight of a graph `build_network` returns is the score of
some input record. -/
theorem weight_from_score_build_network {data : List InteractionRecord} {G : Graph}
    (h : build_network data = Except.ok G) :
    ∀ e ∈ G.edges, ∃ r ∈ data, r.score = some e.2.2 := by
  intro e he
  rcases weights_build_from data Graph.empty G h e he with h1 | h1
  · cases h1
  · exact h1

theorem is_endpoint_iff {G : Graph} {x : String} :
    is_endpoint G x = true ↔ ∃ e ∈ G.edges, e.1 = x ∨ e.2.1 = x := by
  simp [is_endpoint, List.any_eq_true]

/-- A record with a missing key aborts the ingestion loop immediately with
the `KeyError` of the first key whose subscript fails. -/
theorem build_from_missing_key (r : InteractionRecord) (rest : List InteractionRecord)
    (G : Graph) (h : r.preferredName_A = none ∨ r.preferredName_B = none ∨ r.score = none) :
    build_network_from (r :: rest) G = Except.error (missing_key_msg r) := by
  rcases h with hA | hB | hS
  · simp [build_network_from, missing_key_msg, hA]
  · cases hA : r.preferredName_A with
    | none => simp [build_network_from, missing_key_msg, hA]
    | some p1 => simp [build_network_from, missing_key_msg, hA, hB]
  · cases hA : r.preferredName_A with
    | none => simp [build_network_from, missing_key_msg, hA]
    | some p1 =>
      cases hB : r.preferredName_B with
      | none => simp [build_network_from, missing_key_msg, hA, hB]
      | some p2 => simp [build_network_from, missing_key_msg, hA, hB, hS]

/-- Ingesting a list that starts with well-formed records just advances the
accumulated graph. -/
theorem build_from_append_wf :
    ∀ pre : List InteractionRecord,
      (∀ q ∈ pre, q.preferredName_A ≠ none ∧ q.preferredName_B ≠ none ∧ q.score ≠ none) →
      ∀ (G : Graph) (rest : List InteractionRecord),
        ∃ G1, build_network_from (pre ++ rest) G = build_network_from rest G1 := by
  intro pre
  induction pre with
  | nil =>
    intro _ G rest
    exact ⟨G, rfl⟩
  | cons q pre ih =>
    intro hpre G rest
    obtain ⟨hA, hB, hS⟩ := hpre q (List.mem_cons_self _ _)
    cases hqA : q.preferredName_A with
    | none => exact absurd hqA hA
    | some a =>
      cases hqB : q.preferredName_B with
      | none => exact absurd hqB hB
      | some b =>
        cases hqS : q.score with
        | none => exact absurd hqS hS
        | some s =>
          obtain ⟨G1, hG1⟩ :=
            ih (fun r hr => hpre r (List.mem_cons_of_mem _ hr)) (addEdge G a b s) rest
          refine ⟨G1, ?_⟩
          rw [List.cons_append]
          simp only [build_network_from, hqA, hqB, hqS]
          exact hG1

theorem addEdge_empty (p1 p2 : String) (s : ℚ) :
    addEdge Graph.empty p1 p2 s = ⟨if p2 = p1 then [p1] else [p1, p2], [(p1, p2, s)]⟩ := by
  by_cases hp : p2 = p1 <;> simp [addEdge, addNode, replaceEdge, Graph.empty, hp]

theorem addEdge_repeat (ns : List String) (p1 p2 : String) (s1 s2 : ℚ)
    (h1 : p1 ∈ ns) (h2 : p2 ∈ ns) :
    addEdge ⟨ns, [(p1, p2, s1)]⟩ p1 p2 s2 = ⟨ns, [(p1, p2, s2)]⟩ := by
  simp [addEdge, addNode, replaceEdge, h1, h2]

theorem find_hub_genes_eq (G : Graph) (n : ℤ) :
    find_hub_genes G n = (pySliceTo n (sortDesc (degreeList G))).map Prod.fst := rfl

/-! Claims. -/

/-- C1, counterexample: the claim says `build_network` discards every record
whose score is ≤ 0 and therefore never produces an edge of weight ≤ 0.  On
the input `[{A, B, score 0}]` the source adds the edge anyway: the resulting
graph has the edge `A → B` with weight `0`, and `0 ≤ 0`. -/
theorem build_network_keeps_zero_score_edge :
    build_network [mkRecord "A" "B" 0] =
      Except.ok ⟨["A", "B"], [("A", "B", (0 : ℚ))]⟩ ∧ (0 : ℚ) ≤ 0 :=
  ⟨rfl, le_refl 0⟩

/-- C1, amended: `build_network` performs no score filtering at all; an edge
of nonpositive weight is absent exactly when no surviving score is
nonpositive.  Precisely: when every score appearing in the input records is
positive, every edge of the resulting graph has positive weight. -/
theorem build_network_pos_weights_of_pos_scores (data : List InteractionRecord)
    (G : Graph) (h : build_network data = Except.ok G)
    (hpos : all_scores_pos data = true) : ∀ e ∈ G.edges, 0 < e.2.2 := by
  intro e he
  obtain ⟨r, hr, hs⟩ := weight_from_score_build_network h e he
  rw [all_scores_pos, List.all_eq_true] at hpos
  have h2 := hpos r hr
  rw [hs] at h2
  simpa using h2

/-- Witness for C1's amended theorem at the input `[{A, B, score 1}]`. -/
theorem build_network_pos_weights_witness :
    all_scores_pos [mkRecord "A" "B" 1] = true ∧ (0 : ℚ) < 1 :=
  ⟨rfl,
    build_network_pos_weights_of_pos_scores [mkRecord "A" "B" 1]
      ⟨["A", "B"], [("A", "B", (1 : ℚ))]⟩ rfl rfl ("A", "B", (1 : ℚ))
      (List.mem_singleton.mpr rfl)⟩

/-- C2, counterexample: the claim says a record missing an endpoint label is
skipped, non-fatally, and the remaining well-formed records are still
ingested.  On `[{_, B, 1}, {A, B, 1}]` (first record lacks
`preferredName_A`) the source instead raises a fatal `KeyError` and the
well-formed second record is never ingested. -/
theorem build_network_missing_key_fatal_example :
    build_network [⟨none, some "B", some 1⟩, mkRecord "A" "B" 1] =
      Except.error "KeyError: preferredName_A" := rfl

/-- C2, amended: a record missing an endpoint label or the score field is
not skipped: subscripting the absent key raises a `KeyError` which aborts
`build_network` as a whole, and no record after it is ingested — whatever
well-formed records precede or follow it. -/
theorem build_network_missing_key_aborts (pre : List InteractionRecord)
    (r : InteractionRecord) (rest : List InteractionRecord)
    (hpre : ∀ q ∈ pre, q.preferredName_A ≠ none ∧ q.preferredName_B ≠ none ∧ q.score ≠ none)
    (h : r.preferredName_A = none ∨ r.preferredName_B = none ∨ r.score = none) :
    build_network (pre ++ r :: rest) = Except.error (missing_key_msg r) := by
  obtain ⟨G1, hG1⟩ := build_from_append_wf pre hpre Graph.empty (r :: rest)
  rw [build_network, hG1, build_from_missing_key r rest G1 h]

/-- Witness for C2's amended theorem: a well-formed record, then a record
missing `preferredName_B`, then another well-formed record. -/
theorem build_network_missing_key_aborts_witness :
    build_network ([mkRecord "C" "D" 1] ++ ⟨some "A", none, some 1⟩ :: [mkRecord "A" "B" 1]) =
      Except.error (missing_key_msg ⟨some "A", none, some 1⟩) :=
  build_network_missing_key_aborts [mkRecord "C" "D" 1] ⟨some "A", none, some 1⟩
    [mkRecord "A" "B" 1] (by decide) (Or.inr (Or.inl rfl))

/-- C3, counterexample: the claim says calling `find_hub_genes` with
`top_n ≤ 0` fails fast with a descriptive error rather than silently
returning an empty list.  On the two-edge graph built from
`[{A, B, 1}, {B, C, 1}]`, calling it with `top_n = 0` returns the empty
list with no error of any kind. -/
theorem find_hub_genes_zero_returns_empty :
    (build_network [mkRecord "A" "B" 1, mkRecord "B" "C" 1]).map
      (fun G => find_hub_genes G 0) = Except.ok [] := rfl

/-- C3, amended: `find_hub_genes` never raises for `top_n ≤ 0`; Python slice
semantics apply instead: `top_n = 0` silently yields the empty list, and a
negative `top_n` yields the ranked list minus its last `|top_n|` entries. -/
theorem find_hub_genes_nonpos_top_n (G : Graph) (n : ℤ) (h : n ≤ 0) :
    find_hub_genes G n =
      if n = 0 then []
      else ((sortDesc (degreeList G)).take ((G.nodes.length : ℤ) + n).toNat).map Prod.fst := by
  by_cases hn : n = 0
  · subst hn
    simp [find_hub_genes, pySliceTo]
  · rw [if_neg hn]
    have hlt : n < 0 := lt_of_le_of_ne h hn
    rw [find_hub_genes_eq]
    unfold pySliceTo
    rw [if_neg (not_le.mpr hlt), length_sortDesc, length_degreeList]

/-- Witness for C3's amended theorem at a one-edge graph and `top_n = -1`. -/
theorem find_hub_genes_nonpos_top_n_witness :
    (-1 : ℤ) ≤ 0 ∧
      find_hub_genes ⟨["A", "B"], [("A", "B", (1 : ℚ))]⟩ (-1) =
        if (-1 : ℤ) = 0 then []
        else ((sortDesc (degreeList ⟨["A", "B"], [("A", "B", (1 : ℚ))]⟩)).take
          (((⟨["A", "B"], [("A", "B", (1 : ℚ))]⟩ : Graph).nodes.length : ℤ) + (-1)).toNat).map
            Prod.fst :=
  ⟨by decide, find_hub_genes_nonpos_top_n ⟨["A", "B"], [("A", "B", (1 : ℚ))]⟩ (-1) (by decide)⟩

/-- C4, counterexample: the claim says an integer score on the 0–1000 scale
is divided by 1000 during ingestion, so every edge weight lies in `[0, 1]`.
On `[{A, B, score 900}]` the source stores the raw `900` as the edge weight
— not `0.9` — and `900 > 1`. -/
theorem build_network_keeps_raw_integer_score :
    build_network [mkRecord "A" "B" 900] =
      Except.ok ⟨["A", "B"], [("A", "B", (900 : ℚ))]⟩ ∧ ¬ ((900 : ℚ) ≤ 1) :=
  ⟨rfl, by norm_num⟩

/-- C4, amended: `build_network` stores each record's score unchanged as the
edge weight — every edge weight is the verbatim score of some input record,
with no division by 1000; the only 0–1000 conversion in the source is in the
opposite direction, where `get_string_interactions` sends
`required_score = int(min_score * 1000)` (e.g. `400` for the default
threshold `0.4`) to the STRING API, which is then expected to return scores
already in `[0, 1]`. -/
theorem build_network_stores_raw_scores (data : List InteractionRecord) (G : Graph)
    (h : build_network data = Except.ok G) :
    (∀ e ∈ G.edges, score_of_some_record data e.2.2 = true) ∧
      required_score_param ((2 : ℚ) / 5) = 400 := by
  constructor
  · intro e he
    obtain ⟨r, hr, hs⟩ := weight_from_score_build_network h e he
    rw [score_of_some_record, List.any_eq_true]
    exact ⟨r, hr, by simp [hs]⟩
  · norm_num [required_score_param, pyInt]

/-- Witness for C4's amended theorem at the input `[{A, B, score 1}]`. -/
theorem build_network_stores_raw_scores_witness :
    build_network [mkRecord "A" "B" 1] = Except.ok ⟨["A", "B"], [("A", "B", (1 : ℚ))]⟩ ∧
      score_of_some_record [mkRecord "A" "B" 1] 1 = true :=
  ⟨rfl,
    (build_network_stores_raw_scores [mkRecord "A" "B" 1]
      ⟨["A", "B"], [("A", "B", (1 : ℚ))]⟩ rfl).1 ("A", "B", (1 : ℚ))
        (List.mem_singleton.mpr rfl)⟩

/-- C5, confirmed: for `top_n ≥ 1` the hub list has at most `top_n` entries,
every entry is a node of the graph, and when the graph has fewer than
`top_n` nodes every node appears in the list. -/
theorem find_hub_genes_card_and_membership (G : Graph) (n : ℤ) (h : 1 ≤ n) :
    ((find_hub_genes G n).length : ℤ) ≤ n ∧
      (∀ x ∈ find_hub_genes G n, x ∈ G.nodes) ∧
      ((G.nodes.length : ℤ) < n → ∀ x ∈ G.nodes, x ∈ find_hub_genes G n) := by
  have h0 : (0 : ℤ) ≤ n := le_trans zero_le_one h
  refine ⟨?_, ?_, ?_⟩
  · rw [find_hub_genes_eq, List.length_map]
    exact length_pySliceTo_le _ h0
  · intro x hx
    rw [find_hub_genes_eq] at hx
    obtain ⟨p, hp, rfl⟩ := List.mem_map.mp hx
    exact fst_mem_nodes_of_mem_degreeList (mem_sortDesc.mp (mem_of_mem_pySliceTo hp))
  · intro hlt x hx
    rw [find_hub_genes_eq, pySliceTo_of_length_le]
    · exact List.mem_map.mpr
        ⟨(x, degree G x), mem_sortDesc.mpr (mem_degreeList_of_mem_nodes hx), rfl⟩
    · rw [length_sortDesc, length_degreeList]
      omega

/-- Witness for C5 at a two-node graph and `top_n = 3`. -/
theorem find_hub_genes_card_and_membership_witness :
    (1 : ℤ) ≤ 3 ∧
      ((find_hub_genes ⟨["A", "B"], [("A", "B", (1 : ℚ))]⟩ 3).length : ℤ) ≤ 3 ∧
      "A" ∈ find_hub_genes ⟨["A", "B"], [("A", "B", (1 : ℚ))]⟩ 3 :=
  ⟨by decide,
    (find_hub_genes_card_and_membership ⟨["A", "B"], [("A", "B", (1 : ℚ))]⟩ 3 (by decide)).1,
    (find_hub_genes_card_and_membership ⟨["A", "B"], [("A", "B", (1 : ℚ))]⟩ 3 (by decide)).2.2
      (by decide) "A" (by decide)⟩

/-- C6, confirmed: the ranking `find_hub_genes` slices is sorted by degree
descending and is stable — for every degree value `d`, the nodes of degree
`d` appear in exactly their `dict(G.degree())` order, which is node
first-appearance (insertion) order; `find_hub_genes` is precisely the
`top_n` prefix of that stable ranking.  On the spec's scenario
`[(A,B,0.9), (B,C,0.5), (A,C,0.1)]`, where all three nodes have degree 2,
`find_hub_genes` with `top_n = 2` returns `[A, B]`, the first two nodes
encountered. -/
theorem find_hub_genes_degree_sorted_stable (G : Graph) (n : ℤ) :
    (sortDesc (degreeList G)).Pairwise (fun a b => b.2 ≤ a.2) ∧
      (∀ d : ℕ, (sortDesc (degreeList G)).filter (fun p => decide (p.2 = d)) =
        (degreeList G).filter (fun p => decide (p.2 = d))) ∧
      find_hub_genes G n = (pySliceTo n (sortDesc (degreeList G))).map Prod.fst ∧
      (build_network
        [mkRecord "A" "B" (9 / 10), mkRecord "B" "C" (1 / 2), mkRecord "A" "C" (1 / 10)]).map
          (fun g => find_hub_genes g 2) = Except.ok ["A", "B"] :=
  ⟨pairwise_sortDesc _, fun d => filter_sortDesc _ d, rfl, rfl⟩

/-- C7, confirmed: ingesting two records with the same ordered endpoint pair
produces a single edge between them carrying the later record's score
(overwrite, not aggregation); in particular `(A,B,0.3)` then `(A,B,0.8)`
yields exactly the one edge `A → B` of weight `0.8`. -/
theorem build_network_duplicate_overwrites (p1 p2 : String) (s1 s2 : ℚ) :
    build_network [mkRecord p1 p2 s1, mkRecord p1 p2 s2] =
      Except.ok ⟨if p2 = p1 then [p1] else [p1, p2], [(p1, p2, s2)]⟩ ∧
      build_network [mkRecord "A" "B" (3 / 10), mkRecord "A" "B" (4 / 5)] =
        Except.ok ⟨["A", "B"], [("A", "B", (4 : ℚ) / 5)]⟩ := by
  constructor
  · show build_network_from _ _ = _
    simp only [build_network_from, mkRecord]
    rw [addEdge_empty,
      addEdge_repeat _ _ _ _ _ (by by_cases hp : p2 = p1 <;> simp [hp])
        (by by_cases hp : p2 = p1 <;> simp [hp])]
  · rfl

/-- C8, confirmed: in every graph `build_network` produces, a label is a
node exactly when it is an endpoint of some edge — there are no orphan
nodes, and the node set is exactly the set of edge endpoints. -/
theorem build_network_no_orphan_nodes (data : List InteractionRecord) (G : Graph)
    (h : build_network data = Except.ok G) :
    ∀ x, x ∈ G.nodes ↔ is_endpoint G x = true := by
  intro x
  rw [is_endpoint_iff]
  exact nodesEndpoints_build_network h x

/-- Witness for C8 at the input `[{A, B, 1}, {B, C, 1}]` and the label `B`. -/
theorem build_network_no_orphan_nodes_witness :
    build_network [mkRecord "A" "B" 1, mkRecord "B" "C" 1] =
      Except.ok ⟨["A", "B", "C"], [("A", "B", (1 : ℚ)), ("B", "C", (1 : ℚ))]⟩ ∧
      ("B" ∈ (⟨["A", "B", "C"], [("A", "B", (1 : ℚ)), ("B", "C", (1 : ℚ))]⟩ : Graph).nodes ↔
        is_endpoint ⟨["A", "B", "C"], [("A", "B", (1 : ℚ)), ("B", "C", (1 : ℚ))]⟩ "B" = true) :=
  ⟨rfl,
    build_network_no_orphan_nodes [mkRecord "A" "B" 1, mkRecord "B" "C" 1]
      ⟨["A", "B", "C"], [("A", "B", (1 : ℚ)), ("B", "C", (1 : ℚ))]⟩ rfl "B"⟩

/-- C9, confirmed: `find_hub_genes` is deterministic and idempotent — a
second call on the graph state left behind by a first call (with the same
`top_n`) returns the identical ordered label sequence, and that sequence is
the pure `find_hub_genes` result. -/
theorem find_hub_genes_idempotent (G : Graph) (n : ℤ) :
    (find_hub_genes_run ((find_hub_genes_run G n).2) n).1 = (find_hub_genes_run G n).1 ∧
      (find_hub_genes_run G n).1 = find_hub_genes G n :=
  ⟨rfl, rfl⟩

/-- C10, confirmed: `find_hub_genes` is a pure read of the graph — the graph
after the call is the graph before it, in particular its node list, its edge
list and every edge weight are unchanged, and the returned list is a pure
function of the graph and `top_n`. -/
theorem find_hub_genes_pure_read (G : Graph) (n : ℤ) :
    (find_hub_genes_run G n).2 = G ∧
      (find_hub_genes_run G n).2.nodes = G.nodes ∧
      (find_hub_genes_run G n).2.edges = G.edges ∧
      (find_hub_genes_run G n).1 = find_hub_genes G n :=
  ⟨rfl, rfl, rfl, rfl⟩

end ProtnHub
